import Mathlib

/-!
Verification development for the migration orchestration core of
cccteam/deployment-tools.

The embedding models the version-ledger protocol of
`internal/spannermigrate/spannermigrate.go` (the live implementation used by
the bootstrap command) and, where a claim cites it, the historical revision
`internal/migration/migration.go`.

The target store (Cloud Spanner) is modelled as a `Store`: the single
`SchemaMigrations` ledger row plus a trace of committed, externally
observable events.  Each `ReadWriteTransaction` of the Go source is an
atomic function on `Store`: on commit failure the store is returned
unchanged, on success the buffered mutations take effect and the committed
overwrite is appended to the trace.

The step applier behind `migrate.Migrate.Up` lives in the external
`zredinger-ccc/migrate` library, not under this repository's source; it is
modelled from the spec (§4.2) as `stepApplier`.
-/

/-- The single `SchemaMigrations` row: `Version INT64`, `Dirty BOOL`. -/
structure Ledger where
  version : Int
  dirty : Bool
deriving DecidableEq

/-- One migration step from a source: its integer version and whether its
script executes successfully against the store (the script body is opaque;
only its success or failure is observable to the orchestrator). -/
structure Step where
  version : Int
  ok : Bool
deriving DecidableEq

/-- Committed, externally observable events of a run.
`ledgerWrite v d` is a committed full overwrite of the ledger row to
`{version := v, dirty := d}` (the source implements an overwrite as
delete-all-keys plus re-insert inside one transaction).
`sourceStart i` marks the invocation of the step applier on the i-th
migration source.  `stepExec i v` is the successful execution of the
version-`v` step of source `i`. -/
inductive Event where
  | ledgerWrite : Int → Bool → Event
  | sourceStart : Nat → Event
  | stepExec : Nat → Int → Event
deriving DecidableEq

/-- The store: the ledger row plus the trace of committed events. -/
structure Store where
  ledger : Ledger
  trace : List Event
deriving DecidableEq

/-- `const defaultSchemaVersion = -1` (spannermigrate.go line 19): the
sentinel version written while the blind-migration window is open. -/
def defaultSchemaVersion : Int := -1

/-- Row content committed by the first transaction of `MigrateUpData`
(spannermigrate.go lines 79-87): delete all keys, insert
`{defaultSchemaVersion, false}`.  Expressed as a row transformer so that
independence from the prior row content is a provable property. -/
def openWindowMutation : Ledger → Ledger := fun _ => ⟨defaultSchemaVersion, false⟩

/-- Row content committed by the closing transaction of `MigrateUpData`
(spannermigrate.go lines 107-113): delete all keys, insert the saved pair
`{schemaMigration.Version, schemaMigration.Dirty}`. -/
def restoreMutation (saved : Ledger) : Ledger → Ledger := fun _ => saved

/-- Row content of the per-step dirty mark of the step applier (spec §4.2
step 3): dirty is set with the version persisted unchanged, as a full write
of the pair whose version field carries the in-memory current version. -/
def stepDirtyMutation (v : Int) : Ledger → Ledger := fun _ => ⟨v, true⟩

/-- Row content of the per-step completion write of the step applier (spec
§4.2 step 3): the version advances to the applied step and dirty clears. -/
def stepDoneMutation (v : Int) : Ledger → Ledger := fun _ => ⟨v, false⟩

/-- The ledger effect of the restore statement of the historical revision
migration.go lines 93-103: `UPDATE schema_migrations SET version = @version
WHERE true` sets the version column and leaves the dirty column holding
whatever value the prior row had. -/
def migrationRestoreUpdate (v : Int) : Ledger → Ledger := fun l => ⟨v, l.dirty⟩

/-- Commit a ledger overwrite: apply the row transformer and record the
committed pair in the trace. -/
def writeLedger (w : Ledger → Ledger) (st : Store) : Store :=
  ⟨w st.ledger, st.trace ++ [.ledgerWrite (w st.ledger).version (w st.ledger).dirty]⟩

/-- Outcome of driving one source with the step applier, mirroring
`migrate.Migrate.Up`: `applied` (nil error with at least one step applied),
`noChange` (`migrate.ErrNoChange`, returned by the library as a non-nil
error which the Go wrappers pass through), `dirtyLedger` (refusal on a
dirty ledger), or `stepFailed v` (the version-`v` script failed, with the
ledger left dirty). -/
inductive UpOutcome where
  | applied
  | noChange
  | dirtyLedger
  | stepFailed : Int → UpOutcome
deriving DecidableEq

/-- Modelled from the spec: the walk of §4.2 step 3 inside the step applier
(the `migrate` library code behind `migrate.Migrate.Up` is not under src/).
Steps at or below the current ledger version are not pending and are
skipped; each pending step first commits the dirty mark with the version
unchanged, then executes its script, then commits the completion write
advancing the version, one transaction per step-completion.  A failing
script leaves the dirty mark in place and reports `stepFailed`.  If nothing
was applied the outcome is `noChange`. -/
def runPending (src : Nat) (steps : List Step) (st : Store) (applied : Bool) :
    UpOutcome × Store :=
  match steps with
  | [] => (if applied then .applied else .noChange, st)
  | s :: rest =>
    if s.version ≤ st.ledger.version then
      runPending src rest st applied
    else
      let st1 := writeLedger (stepDirtyMutation st.ledger.version) st
      if s.ok then
        runPending src rest
          (writeLedger (stepDoneMutation s.version)
            ⟨st1.ledger, st1.trace ++ [.stepExec src s.version]⟩) true
      else (.stepFailed s.version, st1)

/-- Modelled from the spec: the Step Applier (§4.2) backing
`migrate.Migrate.Up` for one source.  It records the invocation, fails hard
on a dirty ledger without attempting a step, and otherwise drives the
pending steps of the source in order. -/
def stepApplier (src : Nat) (steps : List Step) (st : Store) : UpOutcome × Store :=
  let st0 : Store := ⟨st.ledger, st.trace ++ [.sourceStart src]⟩
  if st0.ledger.dirty then (.dirtyLedger, st0)
  else runPending src steps st0 false

/-- `Client.MigrateUpSchema` (spannermigrate.go lines 52-63): a direct
invocation of the step applier against the real ledger.  The Go function
returns `m.Up()`'s error wrapped, so `noChange` surfaces as the wrapped
`migrate.ErrNoChange` which callers classify with `errors.Is`. -/
def MigrateUpSchema (steps : List Step) (st : Store) : UpOutcome × Store :=
  stepApplier 0 steps st

/-- Fault model for the two explicit `ReadWriteTransaction`s of
`MigrateUpData`: whether the opening (read + sentinel overwrite)
transaction and the closing (restore) transaction commit. -/
structure Env where
  openTxnOk : Bool
  restoreTxnOk : Bool
deriving DecidableEq

/-- Result of `Client.MigrateUpData`: nil error (`ok`), the
`database.Error` wrap of a failed first transaction (`txnFailed`), the
`schema migration is dirty` error (`dirty`), the wrapped error of source
`i` from the loop (`sourceFailed i o`), or the `failed to reset schema
migration version` error (`restoreFailed`). -/
inductive DataOutcome where
  | ok
  | txnFailed
  | dirty
  | restoreFailed
  | sourceFailed : Nat → UpOutcome → DataOutcome
deriving DecidableEq

/-- The `for _, sourceURL := range sourceURLs` loop of spannermigrate.go
lines 99-103: invoke `s.migrateUp` per source in caller order and return
the first non-nil error (any outcome other than `applied`, since the Go
code treats every non-nil error from `m.Up()`, `ErrNoChange` included, as a
failure of the loop). -/
def dataLoop (src : Nat) (sources : List (List Step)) (st : Store) :
    Option (Nat × UpOutcome) × Store :=
  match sources with
  | [] => (none, st)
  | steps :: rest =>
    match stepApplier src steps st with
    | (.applied, st1) => dataLoop (src + 1) rest st1
    | (o, st1) => (some (src, o), st1)

/-- `Client.MigrateUpData` (spannermigrate.go lines 67-126).  The first
transaction reads `{Version, Dirty}` and, in the same transaction, buffers
the delete-plus-reinsert of the sentinel pair; if it does not commit the
store is unchanged.  Only after that commit does the code test the dirty
flag it read.  On a clean read the data sources run in order, and on
success of all of them the second transaction overwrites the ledger back to
the saved pair. -/
def MigrateUpData (env : Env) (sources : List (List Step)) (st : Store) :
    DataOutcome × Store :=
  if env.openTxnOk then
    if st.ledger.dirty then (.dirty, writeLedger openWindowMutation st)
    else
      match dataLoop 0 sources (writeLedger openWindowMutation st) with
      | (some (i, o), st2) => (.sourceFailed i o, st2)
      | (none, st2) =>
        if env.restoreTxnOk then (.ok, writeLedger (restoreMutation st.ledger) st2)
        else (.restoreFailed, st2)
  else (.txnFailed, st)

/-- The migration-source index an event belongs to, if any. -/
def srcTag : Event → Option Nat
  | .ledgerWrite _ _ => none
  | .sourceStart i => some i
  | .stepExec i _ => some i

/-- The versions of the successfully executed steps, in execution order. -/
def execVersions (tr : List Event) : List Int :=
  tr.filterMap fun e =>
    match e with
    | .stepExec _ v => some v
    | _ => none

/-- A ledger write is a full overwrite of the row when the committed pair
does not depend on the prior row content. -/
def fullOverwrite (w : Ledger → Ledger) : Prop := ∀ l1 l2, w l1 = w l2

/-- A list all of whose entries equal `k` is sorted under `≤`. -/
theorem sorted_of_const (k : Nat) (d : List Nat) (h : ∀ j ∈ d, j = k) :
    d.Sorted (· ≤ ·) := by
  induction d with
  | nil => exact List.Pairwise.nil
  | cons x xs ih =>
    refine List.Pairwise.cons ?_ (ih fun j hj => h j (List.mem_cons_of_mem x hj))
    intro y hy
    rw [h x (List.mem_cons_self x xs), h y (List.mem_cons_of_mem x hy)]

/-- The step walk only appends events, and every appended event that carries
a source index carries its own index. -/
theorem runPending_trace (src : Nat) (steps : List Step) :
    ∀ (st : Store) (a : Bool),
      ∃ d, (runPending src steps st a).2.trace = st.trace ++ d ∧
        ∀ j ∈ d.filterMap srcTag, j = src := by
  induction steps with
  | nil =>
    intro st a
    exact ⟨[], by simp [runPending], by simp⟩
  | cons s rest ih =>
    intro st a
    by_cases hle : s.version ≤ st.ledger.version
    · obtain ⟨d, hd, hj⟩ := ih st a
      exact ⟨d, by simpa [runPending, hle] using hd, hj⟩
    · by_cases hok : s.ok = true
      · obtain ⟨d, hd, hjd⟩ := ih
          (writeLedger (stepDoneMutation s.version)
            ⟨(writeLedger (stepDirtyMutation st.ledger.version) st).ledger,
              (writeLedger (stepDirtyMutation st.ledger.version) st).trace ++
                [.stepExec src s.version]⟩) true
        refine ⟨.ledgerWrite st.ledger.version true ::
            .stepExec src s.version ::
              .ledgerWrite s.version false :: d, ?_, ?_⟩
        · simpa [runPending, hle, hok, writeLedger, stepDirtyMutation,
            stepDoneMutation] using hd
        · intro j hj
          have heq : (Event.ledgerWrite st.ledger.version true ::
              Event.stepExec src s.version ::
                Event.ledgerWrite s.version false :: d).filterMap srcTag =
              src :: d.filterMap srcTag := by simp [srcTag]
          rw [heq] at hj
          rcases List.mem_cons.mp hj with h1 | h1
          · exact h1
          · exact hjd j h1
      · exact ⟨[.ledgerWrite st.ledger.version true],
          by simp [runPending, hle, hok, writeLedger, stepDirtyMutation],
          by simp [srcTag]⟩

/-- The step applier only appends events, and every appended event that
carries a source index carries its own index. -/
theorem stepApplier_trace (src : Nat) (steps : List Step) (st : Store) :
    ∃ d, (stepApplier src steps st).2.trace = st.trace ++ d ∧
      ∀ j ∈ d.filterMap srcTag, j = src := by
  by_cases hd : st.ledger.dirty
  · exact ⟨[.sourceStart src], by simp [stepApplier, hd], by simp [srcTag]⟩
  · obtain ⟨d, h1, h2⟩ :=
      runPending_trace src steps ⟨st.ledger, st.trace ++ [.sourceStart src]⟩ false
    refine ⟨.sourceStart src :: d, ?_, ?_⟩
    · simpa [stepApplier, hd] using h1
    · intro j hj
      have heq : (Event.sourceStart src :: d).filterMap srcTag =
          src :: d.filterMap srcTag := by simp [srcTag]
      rw [heq] at hj
      rcases List.mem_cons.mp hj with h3 | h3
      · exact h3
      · exact h2 j h3

/-- When the step walk reports a failing step, the dirty mark it committed
for that step is still in the ledger. -/
theorem runPending_stepFailed_dirty (src : Nat) (steps : List Step) :
    ∀ (st : Store) (a : Bool) (v : Int),
      (runPending src steps st a).1 = .stepFailed v →
      (runPending src steps st a).2.ledger.dirty = true := by
  induction steps with
  | nil =>
    intro st a v h
    cases a <;> simp [runPending] at h
  | cons s rest ih =>
    intro st a v h
    by_cases hle : s.version ≤ st.ledger.version
    · have hrw : runPending src (s :: rest) st a = runPending src rest st a := by
        simp [runPending, hle]
      rw [hrw] at h ⊢
      exact ih st a v h
    · by_cases hok : s.ok = true
      · have hrw : runPending src (s :: rest) st a =
            runPending src rest
              (writeLedger (stepDoneMutation s.version)
                ⟨(writeLedger (stepDirtyMutation st.ledger.version) st).ledger,
                  (writeLedger (stepDirtyMutation st.ledger.version) st).trace ++
                    [.stepExec src s.version]⟩) true := by
          simp [runPending, hle, hok]
        rw [hrw] at h ⊢
        exact ih _ true v h
      · simp [runPending, hle, hok, writeLedger, stepDirtyMutation]

/-- When the step applier reports a failing step, the ledger is dirty. -/
theorem stepApplier_stepFailed_dirty (src : Nat) (steps : List Step) (st : Store)
    (v : Int) (h : (stepApplier src steps st).1 = .stepFailed v) :
    (stepApplier src steps st).2.ledger.dirty = true := by
  by_cases hd : st.ledger.dirty
  · simp [stepApplier, hd] at h
  · have hrw : stepApplier src steps st =
        runPending src steps ⟨st.ledger, st.trace ++ [.sourceStart src]⟩ false := by
      simp [stepApplier, hd]
    rw [hrw] at h ⊢
    exact runPending_stepFailed_dirty src steps _ false v h

/-- The source loop only appends events; the appended source indices are
sorted and bounded below by the starting index. -/
theorem dataLoop_trace (sources : List (List Step)) :
    ∀ (k : Nat) (st : Store),
      ∃ d, (dataLoop k sources st).2.trace = st.trace ++ d ∧
        (d.filterMap srcTag).Sorted (· ≤ ·) ∧
        ∀ j ∈ d.filterMap srcTag, k ≤ j := by
  induction sources with
  | nil =>
    intro k st
    exact ⟨[], by simp [dataLoop], List.Pairwise.nil, by simp⟩
  | cons steps rest ih =>
    intro k st
    rcases ha : stepApplier k steps st with ⟨o1, st1⟩
    obtain ⟨d1, hd1, ht1⟩ := stepApplier_trace k steps st
    rw [ha] at hd1
    cases o1 with
    | applied =>
      obtain ⟨d2, hd2, hs2, hk2⟩ := ih (k + 1) st1
      have hrw : dataLoop k (steps :: rest) st = dataLoop (k + 1) rest st1 := by
        simp [dataLoop, ha]
      refine ⟨d1 ++ d2, ?_, ?_, ?_⟩
      · rw [hrw, hd2, hd1, List.append_assoc]
      · rw [List.filterMap_append]
        refine List.pairwise_append.mpr ⟨sorted_of_const k _ ht1, hs2, ?_⟩
        intro a hadl b hb
        rw [ht1 a hadl]
        exact Nat.le_of_succ_le (hk2 b hb)
      · intro j hj
        rw [List.filterMap_append] at hj
        rcases List.mem_append.mp hj with h1 | h1
        · exact le_of_eq (ht1 j h1).symm
        · exact Nat.le_of_succ_le (hk2 j h1)
    | noChange =>
      have hrw : dataLoop k (steps :: rest) st = (some (k, .noChange), st1) := by
        simp [dataLoop, ha]
      exact ⟨d1, by rw [hrw]; exact hd1, sorted_of_const k _ ht1,
        fun j hj => le_of_eq (ht1 j hj).symm⟩
    | dirtyLedger =>
      have hrw : dataLoop k (steps :: rest) st = (some (k, .dirtyLedger), st1) := by
        simp [dataLoop, ha]
      exact ⟨d1, by rw [hrw]; exact hd1, sorted_of_const k _ ht1,
        fun j hj => le_of_eq (ht1 j hj).symm⟩
    | stepFailed v =>
      have hrw : dataLoop k (steps :: rest) st = (some (k, .stepFailed v), st1) := by
        simp [dataLoop, ha]
      exact ⟨d1, by rw [hrw]; exact hd1, sorted_of_const k _ ht1,
        fun j hj => le_of_eq (ht1 j hj).symm⟩

/-- When the source loop stops at source `i`: `i` is at or after the
starting index, no appended event carries an index beyond `i`, and if the
stop was a failing step the ledger is dirty. -/
theorem dataLoop_some (sources : List (List Step)) :
    ∀ (k : Nat) (st : Store) (i : Nat) (o : UpOutcome),
      (dataLoop k sources st).1 = some (i, o) →
      k ≤ i ∧
      (∃ d, (dataLoop k sources st).2.trace = st.trace ++ d ∧
        ∀ j ∈ d.filterMap srcTag, j ≤ i) ∧
      (∀ v, o = .stepFailed v → (dataLoop k sources st).2.ledger.dirty = true) := by
  induction sources with
  | nil =>
    intro k st i o h
    simp [dataLoop] at h
  | cons steps rest ih =>
    intro k st i o h
    rcases ha : stepApplier k steps st with ⟨o1, st1⟩
    obtain ⟨d1, hd1, ht1⟩ := stepApplier_trace k steps st
    rw [ha] at hd1
    cases o1 with
    | applied =>
      have hrw : dataLoop k (steps :: rest) st = dataLoop (k + 1) rest st1 := by
        simp [dataLoop, ha]
      rw [hrw] at h ⊢
      obtain ⟨hki, ⟨d2, hd2, ht2⟩, hdirty⟩ := ih (k + 1) st1 i o h
      refine ⟨Nat.le_of_succ_le hki, ⟨d1 ++ d2, ?_, ?_⟩, hdirty⟩
      · rw [hd2, hd1, List.append_assoc]
      · intro j hj
        rw [List.filterMap_append] at hj
        rcases List.mem_append.mp hj with h1 | h1
        · exact (ht1 j h1) ▸ Nat.le_of_succ_le hki
        · exact ht2 j h1
    | noChange =>
      have hrw : dataLoop k (steps :: rest) st = (some (k, .noChange), st1) := by
        simp [dataLoop, ha]
      rw [hrw] at h ⊢
      have h2 := h
      simp only [Option.some.injEq, Prod.mk.injEq] at h2
      obtain ⟨hik, hoo⟩ := h2
      subst hik
      subst hoo
      exact ⟨le_refl k, ⟨d1, hd1, fun j hj => le_of_eq (ht1 j hj)⟩,
        fun v hv => by cases hv⟩
    | dirtyLedger =>
      have hrw : dataLoop k (steps :: rest) st = (some (k, .dirtyLedger), st1) := by
        simp [dataLoop, ha]
      rw [hrw] at h ⊢
      have h2 := h
      simp only [Option.some.injEq, Prod.mk.injEq] at h2
      obtain ⟨hik, hoo⟩ := h2
      subst hik
      subst hoo
      exact ⟨le_refl k, ⟨d1, hd1, fun j hj => le_of_eq (ht1 j hj)⟩,
        fun v hv => by cases hv⟩
    | stepFailed v0 =>
      have hrw : dataLoop k (steps :: rest) st = (some (k, .stepFailed v0), st1) := by
        simp [dataLoop, ha]
      rw [hrw] at h ⊢
      have h2 := h
      simp only [Option.some.injEq, Prod.mk.injEq] at h2
      obtain ⟨hik, hoo⟩ := h2
      subst hik
      subst hoo
      refine ⟨le_refl k, ⟨d1, hd1, fun j hj => le_of_eq (ht1 j hj)⟩, fun v1 _ => ?_⟩
      have := stepApplier_stepFailed_dirty k steps st v0 (by rw [ha])
      rw [ha] at this
      exact this

/-- A whole `MigrateUpData` run only appends events, and the source indices
carried by the appended events are sorted in caller order. -/
theorem migrateUpData_trace (env : Env) (sources : List (List Step)) (st : Store) :
    ∃ d, (MigrateUpData env sources st).2.trace = st.trace ++ d ∧
      (d.filterMap srcTag).Sorted (· ≤ ·) := by
  by_cases ho : env.openTxnOk
  · by_cases hd : st.ledger.dirty
    · exact ⟨[.ledgerWrite defaultSchemaVersion false],
        by simp [MigrateUpData, ho, hd, writeLedger, openWindowMutation],
        by simp [srcTag]⟩
    · obtain ⟨d, hdt, hs, _⟩ := dataLoop_trace sources 0 (writeLedger openWindowMutation st)
      rcases hl : dataLoop 0 sources (writeLedger openWindowMutation st) with ⟨res, st2⟩
      rw [hl] at hdt
      have hwt : (writeLedger openWindowMutation st).trace =
          st.trace ++ [Event.ledgerWrite defaultSchemaVersion false] := by
        simp [writeLedger, openWindowMutation]
      cases res with
      | some p =>
        rcases p with ⟨i, o⟩
        refine ⟨Event.ledgerWrite defaultSchemaVersion false :: d, ?_, ?_⟩
        · have : (MigrateUpData env sources st).2 = st2 := by
            simp [MigrateUpData, ho, hd, hl]
          rw [this, hdt, hwt, List.append_assoc]
          rfl
        · simpa [srcTag] using hs
      | none =>
        by_cases hr : env.restoreTxnOk
        · refine ⟨Event.ledgerWrite defaultSchemaVersion false :: d ++
              [Event.ledgerWrite st.ledger.version st.ledger.dirty], ?_, ?_⟩
          · have : (MigrateUpData env sources st).2 =
                writeLedger (restoreMutation st.ledger) st2 := by
              simp [MigrateUpData, ho, hd, hl, hr]
            rw [this]
            simp only [writeLedger, restoreMutation]
            rw [hdt, hwt]
            simp
          · simpa [srcTag] using hs
        · refine ⟨Event.ledgerWrite defaultSchemaVersion false :: d, ?_, ?_⟩
          · have : (MigrateUpData env sources st).2 = st2 := by
              simp [MigrateUpData, ho, hd, hl, hr]
            rw [this, hdt, hwt, List.append_assoc]
            rfl
          · simpa [srcTag] using hs
  · exact ⟨[], by simp [MigrateUpData, ho], List.Pairwise.nil⟩

/-- A nil-error return of `MigrateUpData` happened on a clean pre-call
ledger and the closing transaction put exactly that pre-call pair back. -/
theorem migrateUpData_ok_shape (env : Env) (sources : List (List Step)) (st : Store)
    (h : (MigrateUpData env sources st).1 = .ok) :
    st.ledger.dirty = false ∧
    env.restoreTxnOk = true ∧
    (MigrateUpData env sources st).2.ledger = st.ledger := by
  by_cases ho : env.openTxnOk
  · by_cases hd : st.ledger.dirty
    · simp [MigrateUpData, ho, hd] at h
    · rcases hl : dataLoop 0 sources (writeLedger openWindowMutation st) with ⟨res, st2⟩
      cases res with
      | some p =>
        rcases p with ⟨i, o⟩
        simp [MigrateUpData, ho, hd, hl] at h
      | none =>
        by_cases hr : env.restoreTxnOk
        · refine ⟨by simpa using hd, hr, ?_⟩
          have hfin : (MigrateUpData env sources st).2 =
              writeLedger (restoreMutation st.ledger) st2 := by
            simp [MigrateUpData, ho, hd, hl, hr]
          rw [hfin]
          simp [writeLedger, restoreMutation]
        · simp [MigrateUpData, ho, hd, hl, hr] at h
  · simp [MigrateUpData, ho] at h

/-- When every step of the source is pending, successful, and strictly
increasing in version, the walk applies them all: the outcome is `applied`
(unless the source is empty), the ledger ends clean, and the final version
is at or above every step version and the starting version. -/
theorem runPending_applies_all (steps : List Step) :
    ∀ (src : Nat) (st : Store) (a : Bool),
      (∀ s ∈ steps, s.ok = true) →
      List.Pairwise (fun x y => x.version < y.version) steps →
      (∀ s ∈ steps, st.ledger.version < s.version) →
      st.ledger.dirty = false →
      (runPending src steps st a).1 =
        (if steps = [] then (if a then UpOutcome.applied else .noChange)
          else .applied) ∧
      (runPending src steps st a).2.ledger.dirty = false ∧
      (∀ s ∈ steps, s.version ≤ (runPending src steps st a).2.ledger.version) ∧
      st.ledger.version ≤ (runPending src steps st a).2.ledger.version := by
  induction steps with
  | nil =>
    intro src st a _ _ _ hc
    refine ⟨by simp [runPending], by simpa [runPending] using hc, by simp, ?_⟩
    simp [runPending]
  | cons s rest ih =>
    intro src st a hok hpw hpend hc
    have hlt : st.ledger.version < s.version := hpend s (List.mem_cons_self s rest)
    have hnle : ¬ s.version ≤ st.ledger.version := not_le.mpr hlt
    have hsok : s.ok = true := hok s (List.mem_cons_self s rest)
    have hhead := (List.pairwise_cons.mp hpw).1
    have htail := (List.pairwise_cons.mp hpw).2
    have hnext :
        (writeLedger (stepDoneMutation s.version)
          ⟨(writeLedger (stepDirtyMutation st.ledger.version) st).ledger,
            (writeLedger (stepDirtyMutation st.ledger.version) st).trace ++
              [.stepExec src s.version]⟩).ledger = ⟨s.version, false⟩ := rfl
    have hrw : runPending src (s :: rest) st a =
        runPending src rest
          (writeLedger (stepDoneMutation s.version)
            ⟨(writeLedger (stepDirtyMutation st.ledger.version) st).ledger,
              (writeLedger (stepDirtyMutation st.ledger.version) st).trace ++
                [.stepExec src s.version]⟩) true := by
      simp [runPending, hnle, hsok]
    obtain ⟨ho1, ho2, ho3, ho4⟩ := ih src
      (writeLedger (stepDoneMutation s.version)
        ⟨(writeLedger (stepDirtyMutation st.ledger.version) st).ledger,
          (writeLedger (stepDirtyMutation st.ledger.version) st).trace ++
            [.stepExec src s.version]⟩) true
      (fun r hr => hok r (List.mem_cons_of_mem s hr)) htail
      (by rw [hnext]; exact fun r hr => hhead r hr) (by rw [hnext])
    rw [hrw]
    refine ⟨?_, ho2, ?_, ?_⟩
    · rw [ho1]
      by_cases hre : rest = [] <;> simp [hre]
    · intro r hr
      rcases List.mem_cons.mp hr with h1 | h1
      · rw [h1]
        calc s.version = (⟨s.version, false⟩ : Ledger).version := rfl
          _ ≤ _ := by rw [← hnext]; exact ho4
      · exact ho3 r h1
    · calc st.ledger.version ≤ s.version := le_of_lt hlt
        _ ≤ _ := by
          have := ho4
          rw [hnext] at this
          exact this

/-- When no step of the source is pending the walk changes nothing and
reports `noChange`. -/
theorem runPending_skips_all (steps : List Step) :
    ∀ (src : Nat) (st : Store),
      (∀ s ∈ steps, s.version ≤ st.ledger.version) →
      runPending src steps st false = (.noChange, st) := by
  induction steps with
  | nil => intro src st _; simp [runPending]
  | cons s rest ih =>
    intro src st hle
    have h1 : s.version ≤ st.ledger.version := hle s (List.mem_cons_self s rest)
    have h2 := ih src st fun r hr => hle r (List.mem_cons_of_mem s hr)
    simp [runPending, h1, h2]

/-- Claim C1: for every successful call to MigrateUpData, whatever sequence
of data-migration sources is supplied and however many steps each applies,
the ledger read back after the call is exactly the pre-call pair: the
version observed before the call equals the version observed after it, and
the dirty flag is restored to its pre-call value. -/
theorem migrateUpData_restores_exact_ledger (env : Env) (sources : List (List Step))
    (st : Store) (h : (MigrateUpData env sources st).1 = .ok) :
    (MigrateUpData env sources st).2.ledger = st.ledger :=
  (migrateUpData_ok_shape env sources st h).2.2

theorem migrateUpData_restores_exact_ledger_witness :
    (MigrateUpData ⟨true, true⟩ [[⟨1, true⟩]] ⟨⟨7, false⟩, []⟩).1 = .ok ∧
    (MigrateUpData ⟨true, true⟩ [[⟨1, true⟩]] ⟨⟨7, false⟩, []⟩).2.ledger = ⟨7, false⟩ :=
  ⟨by decide,
    migrateUpData_restores_exact_ledger ⟨true, true⟩ [[⟨1, true⟩]]
      ⟨⟨7, false⟩, []⟩ (by decide)⟩

/-- Claim C2 (code bug): invoked on the dirty ledger {version 7, dirty
true}, MigrateUpData does return the dirty-ledger error and executes no
data-migration step, but the store is not left unchanged: the first
transaction has already committed the sentinel overwrite before the dirty
flag read in that same transaction is checked, so the ledger ends at
{-1, false} with one committed mutation beyond the initial read. -/
theorem migrateUpData_dirty_guard_still_mutates :
    (MigrateUpData ⟨true, true⟩ [[⟨1, true⟩]] ⟨⟨7, true⟩, []⟩).1 = .dirty ∧
    execVersions ((MigrateUpData ⟨true, true⟩ [[⟨1, true⟩]] ⟨⟨7, true⟩, []⟩).2.trace) = [] ∧
    (MigrateUpData ⟨true, true⟩ [[⟨1, true⟩]] ⟨⟨7, true⟩, []⟩).2 =
      ⟨⟨-1, false⟩, [.ledgerWrite (-1) false]⟩ := by
  decide

/-- Claim C3: MigrateUpData reports success only if the final
ledger-restore transaction committed; whenever the restore write fails the
call returns an error, never nil. -/
theorem migrateUpData_no_success_without_restore (env : Env)
    (sources : List (List Step)) (st : Store) (h : env.restoreTxnOk = false) :
    (MigrateUpData env sources st).1 ≠ .ok := by
  intro hok
  have hr := (migrateUpData_ok_shape env sources st hok).2.1
  rw [h] at hr
  exact Bool.false_ne_true hr

theorem migrateUpData_no_success_without_restore_witness :
    (⟨true, false⟩ : Env).restoreTxnOk = false ∧
    (MigrateUpData ⟨true, false⟩ [[⟨1, true⟩]] ⟨⟨7, false⟩, []⟩).1 ≠ .ok :=
  ⟨by decide,
    migrateUpData_no_success_without_restore ⟨true, false⟩ [[⟨1, true⟩]]
      ⟨⟨7, false⟩, []⟩ (by decide)⟩

/-- Claim C9: called with an empty list of source URLs on a clean ledger,
MigrateUpData still executes both the open-window and close-window ledger
transactions (the two committed writes in the trace), applies no migration
step, returns success, and leaves the ledger reading back exactly its
pre-call pair. -/
theorem migrateUpData_empty_sources_roundtrip (env : Env) (l : Ledger)
    (ho : env.openTxnOk = true) (hr : env.restoreTxnOk = true)
    (hd : l.dirty = false) :
    MigrateUpData env [] ⟨l, []⟩ =
      (.ok, ⟨l, [.ledgerWrite defaultSchemaVersion false,
        .ledgerWrite l.version l.dirty]⟩) := by
  obtain ⟨o, r⟩ := env
  obtain ⟨v, d⟩ := l
  simp only at ho hr hd
  subst ho
  subst hr
  subst hd
  rfl

theorem migrateUpData_empty_sources_roundtrip_witness :
    MigrateUpData ⟨true, true⟩ [] ⟨⟨7, false⟩, []⟩ =
      (.ok, ⟨⟨7, false⟩, [.ledgerWrite defaultSchemaVersion false,
        .ledgerWrite 7 false]⟩) :=
  migrateUpData_empty_sources_roundtrip ⟨true, true⟩ ⟨7, false⟩ rfl rfl rfl

/-- Claim C10: on every nil-error return of MigrateUpData the ledger's
dirty flag is false: the call reaches its restore step only when the
pre-call dirty flag was false, and the restore writes that same false value
back. -/
theorem migrateUpData_success_leaves_clean (env : Env) (sources : List (List Step))
    (st : Store) (h : (MigrateUpData env sources st).1 = .ok) :
    (MigrateUpData env sources st).2.ledger.dirty = false := by
  obtain ⟨hd, _, hl⟩ := migrateUpData_ok_shape env sources st h
  rw [hl]
  exact hd

theorem migrateUpData_success_leaves_clean_witness :
    (MigrateUpData ⟨true, true⟩ [[⟨1, true⟩], [⟨2, true⟩]] ⟨⟨7, false⟩, []⟩).1 = .ok ∧
    (MigrateUpData ⟨true, true⟩ [[⟨1, true⟩], [⟨2, true⟩]] ⟨⟨7, false⟩, []⟩).2.ledger.dirty = false :=
  ⟨by decide,
    migrateUpData_success_leaves_clean ⟨true, true⟩ [[⟨1, true⟩], [⟨2, true⟩]]
      ⟨⟨7, false⟩, []⟩ (by decide)⟩

/-- Claim C4 (amended to the observable consequences): when MigrateUpData
stops because a step of source `i` failed, no event of any later source was
recorded (no source after `i` was invoked), the ledger is left dirty, and
it is not restored to the pre-call pair; the call returns the failure with
no restore attempt. -/
theorem migrateUpData_failFast_no_restore (env : Env) (sources : List (List Step))
    (l : Ledger) (i : Nat) (v : Int)
    (h : (MigrateUpData env sources ⟨l, []⟩).1 = .sourceFailed i (.stepFailed v)) :
    (∀ j ∈ ((MigrateUpData env sources ⟨l, []⟩).2.trace).filterMap srcTag, j ≤ i) ∧
    (MigrateUpData env sources ⟨l, []⟩).2.ledger.dirty = true ∧
    (MigrateUpData env sources ⟨l, []⟩).2.ledger ≠ l := by
  by_cases ho : env.openTxnOk
  · by_cases hd : l.dirty
    · simp [MigrateUpData, ho, hd] at h
    · rcases hl : dataLoop 0 sources (writeLedger openWindowMutation ⟨l, []⟩) with ⟨res, st2⟩
      cases res with
      | none =>
        by_cases hr : env.restoreTxnOk
        · simp [MigrateUpData, ho, hd, hl, hr] at h
        · simp [MigrateUpData, ho, hd, hl, hr] at h
      | some p =>
        rcases p with ⟨i0, o0⟩
        have hres : MigrateUpData env sources ⟨l, []⟩ = (.sourceFailed i0 o0, st2) := by
          simp [MigrateUpData, ho, hd, hl]
        rw [hres] at h ⊢
        have h2 := h
        simp only [DataOutcome.sourceFailed.injEq] at h2
        obtain ⟨hi, hoo⟩ := h2
        subst hoo
        rw [hi] at hl
        obtain ⟨h0i, ⟨d, hdt, htag⟩, hdirty⟩ :=
          dataLoop_some sources 0 (writeLedger openWindowMutation ⟨l, []⟩) i
            (.stepFailed v) (by rw [hl])
        rw [hl] at hdt hdirty
        have hwt : (writeLedger openWindowMutation (⟨l, []⟩ : Store)).trace =
            [Event.ledgerWrite defaultSchemaVersion false] := by
          simp [writeLedger, openWindowMutation]
        rw [hwt] at hdt
        have hdy : st2.ledger.dirty = true := hdirty v rfl
        refine ⟨?_, hdy, ?_⟩
        · intro j hj
          have hft : st2.trace.filterMap srcTag = d.filterMap srcTag := by
            rw [hdt]
            simp [srcTag]
          rw [hft] at hj
          exact htag j hj
        · intro hceq
          have hlf : l.dirty = false := by simpa using hd
          rw [hceq, hlf] at hdy
          exact Bool.false_ne_true hdy
  · simp [MigrateUpData, ho] at h

theorem migrateUpData_failFast_no_restore_witness :
    (MigrateUpData ⟨true, true⟩ [[⟨1, false⟩], [⟨2, true⟩]] ⟨⟨7, false⟩, []⟩).1 =
      .sourceFailed 0 (.stepFailed 1) ∧
    ((∀ j ∈ ((MigrateUpData ⟨true, true⟩ [[⟨1, false⟩], [⟨2, true⟩]]
        ⟨⟨7, false⟩, []⟩).2.trace).filterMap srcTag, j ≤ 0) ∧
      (MigrateUpData ⟨true, true⟩ [[⟨1, false⟩], [⟨2, true⟩]]
        ⟨⟨7, false⟩, []⟩).2.ledger.dirty = true ∧
      (MigrateUpData ⟨true, true⟩ [[⟨1, false⟩], [⟨2, true⟩]]
        ⟨⟨7, false⟩, []⟩).2.ledger ≠ ⟨7, false⟩) :=
  ⟨by decide,
    migrateUpData_failFast_no_restore ⟨true, true⟩ [[⟨1, false⟩], [⟨2, true⟩]]
      ⟨7, false⟩ 0 1 (by decide)⟩

/-- Claim C5: MigrateUpData opens the blind-migration window atomically:
if the first transaction does not commit, neither the read nor the write
survives and the store is untouched; if it commits, the very first
committed event of the call is the sentinel overwrite produced together
with the read; and the sentinel is -1, strictly lower than every real
schema version (integers at or above zero). -/
theorem migrateUpData_opens_window_atomically (env : Env)
    (sources : List (List Step)) (st : Store) :
    (env.openTxnOk = false → MigrateUpData env sources st = (.txnFailed, st)) ∧
    (env.openTxnOk = true →
      ∃ tr, (MigrateUpData env sources st).2.trace =
        st.trace ++ .ledgerWrite defaultSchemaVersion false :: tr) ∧
    (defaultSchemaVersion = -1 ∧ ∀ v : Int, 0 ≤ v → defaultSchemaVersion < v) := by
  refine ⟨fun h => by simp [MigrateUpData, h], fun ho => ?_, rfl, fun v hv => ?_⟩
  · by_cases hd : st.ledger.dirty
    · exact ⟨[], by simp [MigrateUpData, ho, hd, writeLedger, openWindowMutation]⟩
    · rcases hl : dataLoop 0 sources (writeLedger openWindowMutation st) with ⟨res, st2⟩
      obtain ⟨d, hdt, _, _⟩ := dataLoop_trace sources 0 (writeLedger openWindowMutation st)
      rw [hl] at hdt
      have hwt : (writeLedger openWindowMutation st).trace =
          st.trace ++ [Event.ledgerWrite defaultSchemaVersion false] := by
        simp [writeLedger, openWindowMutation]
      rw [hwt] at hdt
      cases res with
      | some p =>
        rcases p with ⟨i, o⟩
        refine ⟨d, ?_⟩
        have hfin : (MigrateUpData env sources st).2 = st2 := by
          simp [MigrateUpData, ho, hd, hl]
        rw [hfin, hdt]
        simp
      | none =>
        by_cases hr : env.restoreTxnOk
        · refine ⟨d ++ [Event.ledgerWrite st.ledger.version st.ledger.dirty], ?_⟩
          have hfin : (MigrateUpData env sources st).2 =
              writeLedger (restoreMutation st.ledger) st2 := by
            simp [MigrateUpData, ho, hd, hl, hr]
          rw [hfin]
          simp only [writeLedger, restoreMutation]
          rw [hdt]
          simp
        · refine ⟨d, ?_⟩
          have hfin : (MigrateUpData env sources st).2 = st2 := by
            simp [MigrateUpData, ho, hd, hl, hr]
          rw [hfin, hdt]
          simp
  · exact lt_of_lt_of_le (by decide : defaultSchemaVersion < 0) hv

theorem migrateUpData_opens_window_atomically_witness :
    MigrateUpData ⟨false, true⟩ [[⟨1, true⟩]] ⟨⟨7, false⟩, []⟩ =
      (.txnFailed, ⟨⟨7, false⟩, []⟩) ∧
    ∃ tr, (MigrateUpData ⟨true, true⟩ [[⟨1, true⟩]] ⟨⟨7, false⟩, []⟩).2.trace =
      [] ++ .ledgerWrite defaultSchemaVersion false :: tr :=
  ⟨(migrateUpData_opens_window_atomically ⟨false, true⟩ [[⟨1, true⟩]]
      ⟨⟨7, false⟩, []⟩).1 rfl,
    (migrateUpData_opens_window_atomically ⟨true, true⟩ [[⟨1, true⟩]]
      ⟨⟨7, false⟩, []⟩).2.1 rfl⟩

/-- Claim C6 (amended): every ledger write of the spannermigrate
MigrateUpData path — the sentinel overwrite, the restore overwrite and the
per-step bookkeeping writes — replaces the pair {version, dirty} together,
as a delete-plus-reinsert whose committed row content is independent of the
prior row; the historical migration.go restore is the exception recorded in
the counterexample. -/
theorem migrateUpData_full_pair_writes :
    fullOverwrite openWindowMutation ∧
    (∀ saved, fullOverwrite (restoreMutation saved)) ∧
    (∀ v, fullOverwrite (stepDirtyMutation v)) ∧
    (∀ v, fullOverwrite (stepDoneMutation v)) :=
  ⟨fun _ _ => rfl, fun _ _ _ => rfl, fun _ _ _ => rfl, fun _ _ _ => rfl⟩

/-- Claim C6 counterexample: the restore write of migration.go
(`UPDATE schema_migrations SET version = @version WHERE true`) changes the
version column without writing the dirty column: its committed row content
depends on the prior row's dirty value, so it is not a full overwrite of
the pair. -/
theorem migrationRestoreUpdate_not_full_overwrite :
    migrationRestoreUpdate 7 ⟨defaultSchemaVersion, true⟩ = ⟨7, true⟩ ∧
    migrationRestoreUpdate 7 ⟨defaultSchemaVersion, false⟩ = ⟨7, false⟩ ∧
    ¬ fullOverwrite (migrationRestoreUpdate 7) := by
  refine ⟨rfl, rfl, fun h => ?_⟩
  have hcontra := h ⟨defaultSchemaVersion, true⟩ ⟨defaultSchemaVersion, false⟩
  simp [migrationRestoreUpdate] at hcontra

/-- Claim C7 (amended): the data sources are applied strictly sequentially
in caller-supplied order — the source indices carried by the events of any
MigrateUpData run are sorted, so every event of an earlier source precedes
every event of a later one; reversing the input list, however, does not in
general reverse the execution order (see the counterexample). -/
theorem migrateUpData_sources_sequential (env : Env) (sources : List (List Step))
    (l : Ledger) :
    (((MigrateUpData env sources ⟨l, []⟩).2.trace).filterMap srcTag).Sorted (· ≤ ·) := by
  obtain ⟨d, hdt, hs⟩ := migrateUpData_trace env sources ⟨l, []⟩
  rw [hdt]
  simpa using hs

/-- Claim C7 counterexample: with sources A = [step 1] and B = [step 2] on
the clean ledger {7, false}, the run on [A, B] succeeds executing versions
[1, 2], but the run on the reversed list [B, A] executes only [2] and
aborts with source 1 reporting NoChange — because after B the shared window
version sits at 2 and A's step 1 is no longer pending — so the execution
order is not the reverse [2, 1]. -/
theorem migrateUpData_reverse_order_not_reversed :
    execVersions ((MigrateUpData ⟨true, true⟩ [[⟨1, true⟩], [⟨2, true⟩]]
      ⟨⟨7, false⟩, []⟩).2.trace) = [1, 2] ∧
    (MigrateUpData ⟨true, true⟩ [[⟨1, true⟩], [⟨2, true⟩]] ⟨⟨7, false⟩, []⟩).1 = .ok ∧
    execVersions ((MigrateUpData ⟨true, true⟩ [[⟨2, true⟩], [⟨1, true⟩]]
      ⟨⟨7, false⟩, []⟩).2.trace) = [2] ∧
    (MigrateUpData ⟨true, true⟩ [[⟨2, true⟩], [⟨1, true⟩]] ⟨⟨7, false⟩, []⟩).1 =
      .sourceFailed 1 .noChange ∧
    execVersions ((MigrateUpData ⟨true, true⟩ [[⟨2, true⟩], [⟨1, true⟩]]
      ⟨⟨7, false⟩, []⟩).2.trace) ≠
      (execVersions ((MigrateUpData ⟨true, true⟩ [[⟨1, true⟩], [⟨2, true⟩]]
        ⟨⟨7, false⟩, []⟩).2.trace)).reverse := by
  decide

/-- Claim C8: running MigrateUpSchema twice in succession with no new steps
added yields the Applied outcome on the first run and the NoChange outcome
on the second, and the ledger version is identical after both runs. -/
theorem migrateUpSchema_idempotent (steps : List Step) (st : Store)
    (hne : steps ≠ [])
    (hok : ∀ s ∈ steps, s.ok = true)
    (hsort : List.Pairwise (fun x y => x.version < y.version) steps)
    (hpend : ∀ s ∈ steps, st.ledger.version < s.version)
    (hclean : st.ledger.dirty = false) :
    (MigrateUpSchema steps st).1 = .applied ∧
    (MigrateUpSchema steps (MigrateUpSchema steps st).2).1 = .noChange ∧
    (MigrateUpSchema steps (MigrateUpSchema steps st).2).2.ledger.version =
      (MigrateUpSchema steps st).2.ledger.version := by
  have hrw1 : MigrateUpSchema steps st =
      runPending 0 steps ⟨st.ledger, st.trace ++ [.sourceStart 0]⟩ false := by
    simp [MigrateUpSchema, stepApplier, hclean]
  obtain ⟨ho1, ho2, ho3, ho4⟩ := runPending_applies_all steps 0
    ⟨st.ledger, st.trace ++ [.sourceStart 0]⟩ false hok hsort hpend hclean
  have h2 : MigrateUpSchema steps
      (runPending 0 steps ⟨st.ledger, st.trace ++ [.sourceStart 0]⟩ false).2 =
      (.noChange,
        ⟨(runPending 0 steps ⟨st.ledger, st.trace ++ [.sourceStart 0]⟩ false).2.ledger,
          (runPending 0 steps ⟨st.ledger, st.trace ++ [.sourceStart 0]⟩ false).2.trace ++
            [.sourceStart 0]⟩) := by
    have hrw2 : MigrateUpSchema steps
        (runPending 0 steps ⟨st.ledger, st.trace ++ [.sourceStart 0]⟩ false).2 =
        runPending 0 steps
          ⟨(runPending 0 steps ⟨st.ledger, st.trace ++ [.sourceStart 0]⟩ false).2.ledger,
            (runPending 0 steps ⟨st.ledger, st.trace ++ [.sourceStart 0]⟩ false).2.trace ++
              [.sourceStart 0]⟩ false := by
      simp [MigrateUpSchema, stepApplier, ho2]
    rw [hrw2]
    exact runPending_skips_all steps 0 _ fun s hs => ho3 s hs
  rw [hrw1]
  refine ⟨?_, ?_, ?_⟩
  · rw [ho1]
    simp [hne]
  · rw [h2]
  · rw [h2]

theorem migrateUpSchema_idempotent_witness :
    ((([⟨1, true⟩, ⟨2, true⟩] : List Step) ≠ []) ∧
      (MigrateUpSchema [⟨1, true⟩, ⟨2, true⟩] ⟨⟨0, false⟩, []⟩).1 = .applied) ∧
    (MigrateUpSchema [⟨1, true⟩, ⟨2, true⟩]
      (MigrateUpSchema [⟨1, true⟩, ⟨2, true⟩] ⟨⟨0, false⟩, []⟩).2).1 = .noChange ∧
    (MigrateUpSchema [⟨1, true⟩, ⟨2, true⟩]
      (MigrateUpSchema [⟨1, true⟩, ⟨2, true⟩] ⟨⟨0, false⟩, []⟩).2).2.ledger.version =
      (MigrateUpSchema [⟨1, true⟩, ⟨2, true⟩] ⟨⟨0, false⟩, []⟩).2.ledger.version := by
  have h := migrateUpSchema_idempotent [⟨1, true⟩, ⟨2, true⟩] ⟨⟨0, false⟩, []⟩
    (by decide) (by decide) (by decide) (by decide) (by decide)
  exact ⟨⟨by decide, h.1⟩, h.2.1, h.2.2⟩
